import Mathlib

/-!
Shallow embedding of the MCMC diagnostic estimators of `pyprob/stats.py`
(monotone-sequence effective sample size, batched autocorrelation-time
effective sample size, Gelman-Rubin potential scale reduction), with the
properties of the design specification proved against it.

Modelling conventions: floating-point numbers are modelled as rationals
(`ℚ`); Python integers are unbounded, so integer subtractions such as
`n - k` appearing in float context are modelled as subtraction in `ℚ`;
a numpy array is modelled as a `List ℚ` (1-D), a `List (List ℚ)` (2-D,
row major), or a function `ℕ → ℕ → ℕ → ℚ` together with explicit shape
numbers (3-D); a numpy `IndexError` is modelled by `Option`; a Python
`raise ValueError` is modelled by `Except String`; the infinite ESS
sentinel `float('inf')` is modelled by `⊤ : WithTop ℚ`.
-/

namespace PyprobStats

/-- `np.mean` of a 1-D array: sum divided by length. -/
def listMean (l : List ℚ) : ℚ := l.sum / l.length

/-- `np.var` of a 1-D array: population variance, the mean squared
deviation from the mean. -/
def listVar (l : List ℚ) : ℚ :=
  listMean (l.map (fun a => (a - listMean l) ^ 2))

/-- Embedding of `compute_acorr(x, k, mu, var)`: the elementwise product
`(x[:(n-k)] - mu) * (x[k:] - mu)` is the `zipWith`, then
`np.mean(acorr) / var * (n - k) / n`. -/
def compute_acorr (x : List ℚ) (k : ℕ) (mu var : ℚ) : ℚ :=
  let n := x.length
  let acorr := List.zipWith (fun a b => (a - mu) * (b - mu))
    (List.take (n - k) x) (List.drop k x)
  listMean acorr / var * ((n : ℚ) - (k : ℚ)) / (n : ℚ)

/-- Embedding of the `while` loop of `ess_1d`.  The state is
`(lag, even_auto_cor, odd_auto_cor, running_min, auto_cor_sum, auto_cor)`;
`lag` is the lag of `odd_auto_cor` at the loop test, exactly as in the
source.  The structural `fuel` argument (called with `fuel = n`) strictly
dominates the number of iterations, since each iteration requires
`lag + 2 < n` and advances `lag` by two. -/
def ess_1d_loop (x : List ℚ) (mu var : ℚ) (n : ℕ) :
    ℕ → ℕ → ℚ → ℚ → ℚ → ℚ → List ℚ → ℚ × List ℚ
  | 0, _, _, _, _, acc, trace => (acc, trace)
  | fuel + 1, lag, even, odd, runMin, acc, trace =>
    if even + odd > 0 ∧ lag + 2 < n then
      let rm := min runMin (even + odd)
      let acc2 := acc + 2 * rm
      let even2 := compute_acorr x (lag + 1) mu var
      let odd2 := compute_acorr x (lag + 2) mu var
      ess_1d_loop x mu var n fuel (lag + 2) even2 odd2 rm acc2
        (trace ++ [even2, odd2])
    else (acc, trace)

/-- Embedding of `ess_1d` up to (but not including) the final division:
returns the pair `(auto_cor_sum, auto_cor)` after the loop. -/
def ess_1d_core (x : List ℚ) (mu var : ℚ) : ℚ × List ℚ :=
  let n := x.length
  let even := compute_acorr x 0 mu var
  let odd := compute_acorr x 1 mu var
  ess_1d_loop x mu var n n 1 even odd (even + odd) (-even) [even, odd]

/-- Embedding of `ess_1d(x, mu, var)`: `ess = n / auto_cor_sum`, replaced
by `float('inf')` (modelled as `⊤`) when `auto_cor_sum < 0`. -/
def ess_1d (x : List ℚ) (mu var : ℚ) : WithTop ℚ × List ℚ :=
  let n := x.length
  let r := ess_1d_core x mu var
  (if r.1 < 0 then ⊤ else (((n : ℚ) / r.1 : ℚ) : WithTop ℚ), r.2)

/-- Specification-side loop for the monotone-sequence estimator, written
from the words of the specification: at odd lag `lag`, while the current
even-lag plus odd-lag autocorrelation sum is strictly positive and
`lag + 2 < n`, update the running minimum, add twice the running minimum
to the accumulator, and compute the next even-lag and odd-lag
autocorrelations. -/
def ess_1d_spec_loop (x : List ℚ) (mu var : ℚ) (n : ℕ) :
    ℕ → ℕ → ℚ → ℚ → List ℚ → ℚ × List ℚ
  | 0, _, _, acc, trace => (acc, trace)
  | fuel + 1, lag, runMin, acc, trace =>
    if compute_acorr x (lag - 1) mu var + compute_acorr x lag mu var > 0 ∧
        lag + 2 < n then
      let rm := min runMin
        (compute_acorr x (lag - 1) mu var + compute_acorr x lag mu var)
      ess_1d_spec_loop x mu var n fuel (lag + 2) rm (acc + 2 * rm)
        (trace ++ [compute_acorr x (lag + 1) mu var,
                   compute_acorr x (lag + 2) mu var])
    else (acc, trace)

/-- Specification-side monotone-sequence estimator: initialize the
accumulator to `-acorr(0)` and the running minimum to
`acorr(0) + acorr(1)`, run the paired-lag loop, and when the accumulated
sum is nonnegative return `ESS = n / accumulated` with the trace of all
computed autocorrelations in lag order (infinite ESS otherwise). -/
def ess_1d_spec (x : List ℚ) (mu var : ℚ) : WithTop ℚ × List ℚ :=
  let n := x.length
  let g0 := compute_acorr x 0 mu var
  let g1 := compute_acorr x 1 mu var
  let r := ess_1d_spec_loop x mu var n n 1 (g0 + g1) (-g0) [g0, g1]
  (if 0 ≤ r.1 then (((n : ℚ) / r.1 : ℚ) : WithTop ℚ) else ⊤, r.2)

/-- Embedding of the column extraction `samples[key][:, j]`: the column
exists when `j` is a valid index into every row, and a numpy `IndexError`
(modelled as `none`) is raised otherwise. -/
def getColumn (m : List (List ℚ)) (j : ℕ) : Option (List ℚ) :=
  if ∀ row ∈ m, j < row.length then some (m.map (fun row => row.getD j 0))
  else none

/-- Embedding of `mono_seq_ess(samples, key, mu, var)` where `samples[key]`
is the 2-D matrix `samples`: the defaults are `samples[key].mean()` and
`samples[key].var()` over all entries, the loop bound is
`d = len(samples[key]) - 1` (the row count minus one, exactly as in the
source), and only the `ess` array is returned (`return ess`). -/
def mono_seq_ess (samples : List (List ℚ)) (mu0 var0 : Option ℚ) :
    Option (List (WithTop ℚ)) :=
  let mu := mu0.getD (listMean samples.flatten)
  let var := var0.getD (listVar samples.flatten)
  let d := samples.length - 1
  (List.range d).mapM (fun j =>
    (getColumn samples j).map (fun x => (ess_1d x mu var).1))

/-- Embedding of `gelman_rubin_diagnostic` up to (but not including) the
final square root: the chains are the rows of `x`, `theta`/`sigma` are the
per-chain means and (population) variances, `theta_m = mu if mu else
np.mean(theta, axis=0)` (Python truthiness: a supplied `mu = 0` falls back
exactly like `None`), and the result is `v_hat / w`. -/
def gelman_rubin_ratio (x : List (List ℚ)) (mu : Option ℚ) :
    Except String ℚ :=
  let m := x.length
  let n := (x.headD []).length
  if m < 2 then
    Except.error
      "Gelman-Rubin diagnostic requires multiple chains of the same length."
  else
    let theta := x.map listMean
    let sigma := x.map listVar
    let theta_m :=
      match mu with
      | some v => if v = 0 then listMean theta else v
      | none => listMean theta
    let b := (n : ℚ) / ((m : ℚ) - 1) *
      (theta.map (fun ti => (ti - theta_m) ^ 2)).sum
    let w := 1 / (m : ℚ) * sigma.sum
    let v_hat := ((n : ℚ) - 1) / (n : ℚ) * w +
      ((m : ℚ) + 1) / ((m : ℚ) * (n : ℚ)) * b
    Except.ok (v_hat / w)

/-- Embedding of `gelman_rubin_diagnostic(x, mu)`:
`r_hat = np.sqrt(v_hat / w)`. -/
noncomputable def gelman_rubin_diagnostic (x : List (List ℚ))
    (mu : Option ℚ) : Except String ℝ :=
  (gelman_rubin_ratio x mu).map (fun (q : ℚ) => Real.sqrt (q : ℝ))

/-- `np.mean(x, axis=(0, 1))` of a `(b, t, d)` tensor, per dimension `j`. -/
def tensorMean (b t : ℕ) (x : ℕ → ℕ → ℕ → ℚ) (j : ℕ) : ℚ :=
  (∑ i in Finset.range b, ∑ k in Finset.range t, x i k j) /
    ((b : ℚ) * (t : ℚ))

/-- `np.var(x, axis=(0, 1))` of a `(b, t, d)` tensor, per dimension `j`. -/
def tensorVar (b t : ℕ) (x : ℕ → ℕ → ℕ → ℚ) (j : ℕ) : ℚ :=
  (∑ i in Finset.range b, ∑ k in Finset.range t,
      (x i k j - tensorMean b t x j) ^ 2) / ((b : ℚ) * (t : ℚ))

/-- Embedding of `auto_correlation_time(x, s, mu, var)`: for each chain
`i`, the mean over the time axis of the product of centered values
`y[:-s] * y[s:]` divided by `var`, accumulated over the `b` chains and
finally divided by `b`. -/
def auto_correlation_time (b t : ℕ) (x : ℕ → ℕ → ℕ → ℚ) (s : ℕ)
    (mu var : ℕ → ℚ) (j : ℕ) : ℚ :=
  (∑ i in Finset.range b,
      (∑ k in Finset.range (t - s), (x i k j - mu j) * (x i (k + s) j - mu j)) /
        (((t - s : ℕ) : ℚ)) / var j) / (b : ℚ)

/-- One accumulator update of `effective_sample_size` at lag `s`: each
dimension `j < d` whose autocorrelation exceeds `0.05` gains
`2 * p[j] * (1 - s / t)`. -/
def essUpdate (d : ℕ) (p : ℕ → ℚ) (s t : ℕ) (ess : ℕ → ℚ) : ℕ → ℚ :=
  fun j =>
    if j < d ∧ p j > 1 / 20 then ess j + 2 * p j * (1 - (s : ℚ) / (t : ℚ))
    else ess j

/-- Embedding of the lag loop `for s in range(1, t)` of
`effective_sample_size`, with the break `if np.sum(p > 0.05) == 0`
modelled as the count of dimensions whose autocorrelation exceeds the
threshold being zero.  The structural `fuel` argument is called with
`t - 1`, the exact number of loop iterations. -/
def essLoop (b t d : ℕ) (x : ℕ → ℕ → ℕ → ℚ) (mu var : ℕ → ℚ) :
    ℕ → ℕ → (ℕ → ℚ) → (ℕ → ℚ)
  | 0, _, ess => ess
  | r + 1, s, ess =>
    let p := auto_correlation_time b t x s mu var
    if ((Finset.range d).filter (fun j => p j > 1 / 20)).card = 0 then ess
    else essLoop b t d x mu var r (s + 1) (essUpdate d p s t ess)

/-- Embedding of `effective_sample_size(x, mu, var)` for a `(b, t, d)`
tensor: defaults `mu`/`var` over the batch and time axes, accumulator
initialized to ones, and the elementwise result `t / ess_`. -/
def effective_sample_size (b t d : ℕ) (x : ℕ → ℕ → ℕ → ℚ)
    (mu0 var0 : Option (ℕ → ℚ)) : ℕ → ℚ :=
  let mu := mu0.getD (tensorMean b t x)
  let var := var0.getD (tensorVar b t x)
  let ess := essLoop b t d x mu var (t - 1) 1 (fun _ => 1)
  fun j => (t : ℚ) / ess j

/-- Specification-side stopping lag of the batched estimator: scanning
lags `s = 1, 2, ...` with the given fuel, the first lag at which no
dimension's autocorrelation exceeds the significance threshold `0.05`
(one past the last scanned lag when every scanned lag has a significant
dimension). -/
def stopLag (b t d : ℕ) (x : ℕ → ℕ → ℕ → ℚ) (mu var : ℕ → ℚ) :
    ℕ → ℕ → ℕ
  | 0, s => s
  | r + 1, s =>
    if ∀ j ∈ Finset.range d,
        ¬ (auto_correlation_time b t x s mu var j > 1 / 20) then s
    else stopLag b t d x mu var r (s + 1)

/-- Specification-side accumulator of the batched estimator for dimension
`j`: one, plus the tapered contribution `2 * p * (1 - s / t)` of every lag
`s` before the stopping lag at which `p = p_s[j]` exceeds `0.05`. -/
def essSpecAcc (b t d : ℕ) (x : ℕ → ℕ → ℕ → ℚ) (mu var : ℕ → ℚ)
    (j : ℕ) : ℚ :=
  1 + ∑ s in Finset.Ico 1 (stopLag b t d x mu var (t - 1) 1),
    (if auto_correlation_time b t x s mu var j > 1 / 20
     then 2 * auto_correlation_time b t x s mu var j *
       (1 - (s : ℚ) / (t : ℚ))
     else 0)

/-- The entry `x[i, k]` of a 2-D sample array modelled as a list of rows. -/
def entry (x : List (List ℚ)) (i k : ℕ) : ℚ := (x.getD i []).getD k 0

/-- Specification-side per-chain mean over the `n` draws of chain `i`. -/
def chainMeanSpec (x : List (List ℚ)) (n i : ℕ) : ℚ :=
  (∑ k in Finset.range n, entry x i k) / (n : ℚ)

/-- Specification-side per-chain empirical variance over the draws. -/
def chainVarSpec (x : List (List ℚ)) (n i : ℕ) : ℚ :=
  (∑ k in Finset.range n, (entry x i k - chainMeanSpec x n i) ^ 2) / (n : ℚ)

/-- Specification-side grand mean: the mean of the per-chain means. -/
def grandMeanSpec (x : List (List ℚ)) (n : ℕ) : ℚ :=
  (∑ i in Finset.range x.length, chainMeanSpec x n i) / (x.length : ℚ)

/-- Specification-side between-chain variance
`B = n / (m - 1) * Σ_i (θ_i - θ̄)²`. -/
def betweenVarSpec (x : List (List ℚ)) (n : ℕ) : ℚ :=
  (n : ℚ) / ((x.length : ℚ) - 1) *
    ∑ i in Finset.range x.length,
      (chainMeanSpec x n i - grandMeanSpec x n) ^ 2

/-- Specification-side within-chain variance `W = (1 / m) * Σ_i σ_i²`. -/
def withinVarSpec (x : List (List ℚ)) (n : ℕ) : ℚ :=
  1 / (x.length : ℚ) * ∑ i in Finset.range x.length, chainVarSpec x n i

/-- Specification-side pooled variance estimate
`V̂ = (n - 1) / n * W + (m + 1) / (m * n) * B`. -/
def vHatSpec (x : List (List ℚ)) (n : ℕ) : ℚ :=
  ((n : ℚ) - 1) / (n : ℚ) * withinVarSpec x n +
    ((x.length : ℚ) + 1) / ((x.length : ℚ) * (n : ℚ)) * betweenVarSpec x n

/-! ### Helper lemmas -/

theorem sum_map_getD {α : Type} (f : α → ℚ) (d : α) (l : List α) :
    (l.map f).sum = ∑ i in Finset.range l.length, f (l.getD i d) := by
  induction l with
  | nil => simp
  | cons a l ih =>
    rw [List.map_cons, List.sum_cons, List.length_cons,
      Finset.sum_range_succ']
    simp only [List.getD_cons_succ, List.getD_cons_zero]
    rw [ih]
    ring

theorem sum_zipWith_getD (f : ℚ → ℚ → ℚ) (a b : List ℚ) :
    (List.zipWith f a b).sum =
      ∑ i in Finset.range (min a.length b.length),
        f (a.getD i 0) (b.getD i 0) := by
  induction a generalizing b with
  | nil => simp
  | cons u a ih =>
    cases b with
    | nil => simp
    | cons v b =>
      rw [List.zipWith_cons_cons, List.sum_cons, List.length_cons,
        List.length_cons, Nat.succ_min_succ, Finset.sum_range_succ']
      simp only [List.getD_cons_succ, List.getD_cons_zero]
      rw [ih]
      ring

theorem getD_take_eq (l : List ℚ) (m i : ℕ) (h : i < m) :
    (l.take m).getD i 0 = l.getD i 0 := by
  simp [List.getD_eq_getElem?_getD, List.getElem?_take, h]

theorem getD_drop_eq (l : List ℚ) (k i : ℕ) :
    (l.drop k).getD i 0 = l.getD (k + i) 0 := by
  simp [List.getD_eq_getElem?_getD, List.getElem?_drop]

theorem ess_1d_loop_eq_spec (x : List ℚ) (mu var : ℚ) (n : ℕ) :
    ∀ (fuel lag : ℕ) (runMin acc : ℚ) (trace : List ℚ),
      ess_1d_loop x mu var n fuel lag (compute_acorr x (lag - 1) mu var)
        (compute_acorr x lag mu var) runMin acc trace =
      ess_1d_spec_loop x mu var n fuel lag runMin acc trace := by
  intro fuel
  induction fuel with
  | zero => intro lag runMin acc trace; rfl
  | succ fuel ih =>
    intro lag runMin acc trace
    simp only [ess_1d_loop, ess_1d_spec_loop]
    split_ifs with h
    · have h2 := ih (lag + 2)
        (min runMin (compute_acorr x (lag - 1) mu var +
          compute_acorr x lag mu var))
        (acc + 2 * min runMin (compute_acorr x (lag - 1) mu var +
          compute_acorr x lag mu var))
        (trace ++ [compute_acorr x (lag + 1) mu var,
          compute_acorr x (lag + 2) mu var])
      simpa using h2
    · rfl

/-! ### Claim theorems -/

/-- C9: for a series `x` of length `n`, a lag `k < n`, a mean `mu` and a
non-zero variance `var`, `compute_acorr(x, k, mu, var)` returns the mean
over `i = 0 .. n-k-1` of `(x[i] - mu) * (x[i+k] - mu)`, divided by `var`,
multiplied by the small-sample correction factor `(n - k) / n`. -/
theorem compute_acorr_formula (x : List ℚ) (k : ℕ) (mu var : ℚ)
    (hk : k < x.length) (hvar : var ≠ 0) :
    compute_acorr x k mu var =
      (∑ i in Finset.range (x.length - k),
          (x.getD i 0 - mu) * (x.getD (i + k) 0 - mu)) /
        ((x.length : ℚ) - (k : ℚ)) / var *
        (((x.length : ℚ) - (k : ℚ)) / (x.length : ℚ)) := by
  have hkle : k ≤ x.length := hk.le
  simp only [compute_acorr, listMean]
  rw [sum_zipWith_getD, List.length_zipWith, List.length_take,
    List.length_drop]
  have hmin1 : min (x.length - k) x.length = x.length - k := by omega
  rw [hmin1, min_self]
  have hsum : ∑ i in Finset.range (x.length - k),
      ((List.take (x.length - k) x).getD i 0 - mu) *
        ((List.drop k x).getD i 0 - mu) =
      ∑ i in Finset.range (x.length - k),
        (x.getD i 0 - mu) * (x.getD (i + k) 0 - mu) := by
    refine Finset.sum_congr rfl (fun i hi => ?_)
    have hi' : i < x.length - k := Finset.mem_range.mp hi
    rw [getD_take_eq x (x.length - k) i hi', getD_drop_eq x k i,
      Nat.add_comm k i]
  rw [hsum, Nat.cast_sub hkle]
  ring

/-- Witness for C9: the formula evaluated at `x = [1, 2, 4]`, `k = 1`,
`mu = 2`, `var = 1`. -/
theorem compute_acorr_formula_witness :
    ((1 : ℕ) < ([1, 2, 4] : List ℚ).length ∧ (1 : ℚ) ≠ 0) ∧
    compute_acorr [1, 2, 4] 1 2 1 =
      (∑ i in Finset.range (([1, 2, 4] : List ℚ).length - 1),
          (([1, 2, 4] : List ℚ).getD i 0 - 2) *
            (([1, 2, 4] : List ℚ).getD (i + 1) 0 - 2)) /
        ((([1, 2, 4] : List ℚ).length : ℚ) - ((1 : ℕ) : ℚ)) / 1 *
        (((([1, 2, 4] : List ℚ).length : ℚ) - ((1 : ℕ) : ℚ)) /
          (([1, 2, 4] : List ℚ).length : ℚ)) :=
  ⟨⟨by norm_num, by norm_num⟩,
   compute_acorr_formula [1, 2, 4] 1 2 1 (by norm_num) (by norm_num)⟩

/-- C1: for a series of length at least 3 and non-zero variance, `ess_1d`
computes its result exactly as specified: it initializes
`accumulated = -acorr(0)` and `running_min = acorr(0) + acorr(1)`; while
the current even-lag plus odd-lag autocorrelation sum is strictly positive
and `lag + 2 < n` it updates the running minimum with the pair sum, adds
twice the running minimum to the accumulator, and computes the next
even-lag and odd-lag autocorrelations; finally, when the accumulated sum
is nonnegative, it returns `ESS = n / accumulated` together with the trace
of all computed autocorrelations in lag order. -/
theorem ess_1d_matches_spec (x : List ℚ) (mu var : ℚ)
    (hn : 3 ≤ x.length) (hvar : var ≠ 0) :
    ess_1d x mu var = ess_1d_spec x mu var := by
  have h := ess_1d_loop_eq_spec x mu var x.length x.length 1
    (compute_acorr x 0 mu var + compute_acorr x 1 mu var)
    (-(compute_acorr x 0 mu var))
    [compute_acorr x 0 mu var, compute_acorr x 1 mu var]
  norm_num at h
  simp only [ess_1d, ess_1d_core, ess_1d_spec]
  rw [h]
  rcases lt_or_le ((ess_1d_spec_loop x mu var x.length x.length 1
      (compute_acorr x 0 mu var + compute_acorr x 1 mu var)
      (-(compute_acorr x 0 mu var))
      [compute_acorr x 0 mu var, compute_acorr x 1 mu var]).1) 0
    with h0 | h0
  · simp [h0, not_le.mpr h0]
  · simp [h0, not_lt.mpr h0]

/-- Witness for C1: the equality at the length-6 series
`[0, 1, 0, 1, 0, 1]` with `mu = 1/2`, `var = 1/4`. -/
theorem ess_1d_matches_spec_witness :
    (3 ≤ ([0, 1, 0, 1, 0, 1] : List ℚ).length ∧ (1 / 4 : ℚ) ≠ 0) ∧
    ess_1d [0, 1, 0, 1, 0, 1] (1 / 2) (1 / 4) =
      ess_1d_spec [0, 1, 0, 1, 0, 1] (1 / 2) (1 / 4) :=
  ⟨⟨by norm_num, by norm_num⟩,
   ess_1d_matches_spec [0, 1, 0, 1, 0, 1] (1 / 2) (1 / 4)
     (by norm_num) (by norm_num)⟩

/-- C6: whenever the accumulated autocorrelation sum of `ess_1d` ends up
strictly negative the returned ESS is positive infinity, and the returned
ESS is never negative. -/
theorem ess_1d_no_negative (x : List ℚ) (mu var : ℚ) :
    ((ess_1d_core x mu var).1 < 0 → (ess_1d x mu var).1 = ⊤) ∧
      0 ≤ (ess_1d x mu var).1 := by
  constructor
  · intro h
    simp [ess_1d, h]
  · rcases lt_or_le (ess_1d_core x mu var).1 0 with h | h
    · simp [ess_1d, h]
    · have h0 : (0 : ℚ) ≤ (x.length : ℚ) / (ess_1d_core x mu var).1 :=
        div_nonneg (by positivity) h
      simp only [ess_1d, not_lt.mpr h, if_false]
      exact_mod_cast h0

/-- Witness for C6: the series `[0, 1, 2]` with `mu = 1`, `var = 1` has a
strictly negative accumulated sum (`-2/3`) and infinite ESS. -/
theorem ess_1d_no_negative_witness :
    (ess_1d_core [0, 1, 2] 1 1).1 < 0 ∧ (ess_1d [0, 1, 2] 1 1).1 = ⊤ :=
  ⟨by norm_num [ess_1d_core, ess_1d_loop, compute_acorr, listMean],
   (ess_1d_no_negative [0, 1, 2] 1 1).1
     (by norm_num [ess_1d_core, ess_1d_loop, compute_acorr, listMean])⟩

/-- C2 (code bug): on the 4 × 2 sample matrix below, `mono_seq_ess`
computes `d = len(samples[key]) - 1 = 3` from the row count rather than
the column count, and therefore attempts to read column 2 of a 2-column
matrix: a numpy `IndexError` (modelled as `none`) instead of the claimed
two per-column ESS values — and the source in any case returns only
`ess`, never the autocorrelation-trace list its docstring promises. -/
theorem mono_seq_ess_index_error :
    mono_seq_ess [[0, 1], [1, 0], [2, 1], [3, 0]] (some 1) (some (1 / 2)) =
      none := by
  rfl

/-! ### Helper lemmas for the Gelman-Rubin diagnostic -/

theorem getD_mem_of_lt {α : Type} (l : List α) (d : α) (i : ℕ)
    (h : i < l.length) : l.getD i d ∈ l := by
  rw [List.getD_eq_getElem?_getD, List.getElem?_eq_getElem h]
  exact List.getElem_mem h

theorem list_sum_getD (l : List ℚ) :
    l.sum = ∑ i in Finset.range l.length, l.getD i 0 := by
  simpa using sum_map_getD id 0 l

theorem listMean_map (f : ℚ → ℚ) (l : List ℚ) :
    listMean (l.map f) =
      (∑ i in Finset.range l.length, f (l.getD i 0)) / (l.length : ℚ) := by
  unfold listMean
  rw [sum_map_getD f 0 l, List.length_map]

theorem listMean_eq_spec (x : List (List ℚ)) (n i : ℕ)
    (hrect : ∀ row ∈ x, row.length = n) (hi : i < x.length) :
    listMean (x.getD i []) = chainMeanSpec x n i := by
  have hlen : (x.getD i []).length = n := hrect _ (getD_mem_of_lt x [] i hi)
  unfold listMean chainMeanSpec entry
  rw [list_sum_getD, hlen]

theorem listVar_eq_spec (x : List (List ℚ)) (n i : ℕ)
    (hrect : ∀ row ∈ x, row.length = n) (hi : i < x.length) :
    listVar (x.getD i []) = chainVarSpec x n i := by
  have hlen : (x.getD i []).length = n := hrect _ (getD_mem_of_lt x [] i hi)
  unfold listVar
  rw [listMean_map, listMean_eq_spec x n i hrect hi, hlen]
  rfl

theorem theta_sum_eq (x : List (List ℚ)) (n : ℕ)
    (hrect : ∀ row ∈ x, row.length = n) :
    (x.map listMean).sum =
      ∑ i in Finset.range x.length, chainMeanSpec x n i := by
  rw [sum_map_getD listMean [] x]
  exact Finset.sum_congr rfl
    (fun i hi => listMean_eq_spec x n i hrect (Finset.mem_range.mp hi))

theorem sigma_sum_eq (x : List (List ℚ)) (n : ℕ)
    (hrect : ∀ row ∈ x, row.length = n) :
    (x.map listVar).sum =
      ∑ i in Finset.range x.length, chainVarSpec x n i := by
  rw [sum_map_getD listVar [] x]
  exact Finset.sum_congr rfl
    (fun i hi => listVar_eq_spec x n i hrect (Finset.mem_range.mp hi))

theorem theta_mean_eq (x : List (List ℚ)) (n : ℕ)
    (hrect : ∀ row ∈ x, row.length = n) :
    listMean (x.map listMean) = grandMeanSpec x n := by
  rw [show listMean (x.map listMean) =
      (x.map listMean).sum / ((x.map listMean).length : ℚ) from rfl,
    List.length_map, theta_sum_eq x n hrect]
  rfl

theorem bsum_eq (x : List (List ℚ)) (n : ℕ)
    (hrect : ∀ row ∈ x, row.length = n) :
    ((x.map listMean).map
        (fun ti => (ti - listMean (x.map listMean)) ^ 2)).sum =
      ∑ i in Finset.range x.length,
        (chainMeanSpec x n i - grandMeanSpec x n) ^ 2 := by
  rw [List.map_map,
    sum_map_getD ((fun ti => (ti - listMean (x.map listMean)) ^ 2) ∘
      listMean) [] x]
  refine Finset.sum_congr rfl (fun i hi => ?_)
  have hi' := Finset.mem_range.mp hi
  simp only [Function.comp]
  rw [listMean_eq_spec x n i hrect hi', theta_mean_eq x n hrect]

theorem listMean_replicate (m : ℕ) (c : ℚ) (hm : m ≠ 0) :
    listMean (List.replicate m c) = c := by
  unfold listMean
  rw [List.sum_replicate, List.length_replicate, nsmul_eq_mul]
  exact mul_div_cancel_left₀ c (Nat.cast_ne_zero.mpr hm)

/-! ### Helper lemmas for the batched estimator -/

theorem stopLag_ge (b t d : ℕ) (x : ℕ → ℕ → ℕ → ℚ) (mu var : ℕ → ℚ) :
    ∀ (r s : ℕ), s ≤ stopLag b t d x mu var r s := by
  intro r
  induction r with
  | zero => intro s; exact le_of_eq rfl
  | succ r ih =>
    intro s
    simp only [stopLag]
    split_ifs
    · exact le_refl s
    · exact le_trans (Nat.le_succ s) (ih (s + 1))

theorem stopLag_le (b t d : ℕ) (x : ℕ → ℕ → ℕ → ℚ) (mu var : ℕ → ℚ) :
    ∀ (r s : ℕ), stopLag b t d x mu var r s ≤ s + r := by
  intro r
  induction r with
  | zero => intro s; simp [stopLag]
  | succ r ih =>
    intro s
    simp only [stopLag]
    split_ifs
    · omega
    · have := ih (s + 1); omega

theorem essLoop_eq (b t d : ℕ) (x : ℕ → ℕ → ℕ → ℚ) (mu var : ℕ → ℚ) :
    ∀ (r s : ℕ) (ess : ℕ → ℚ) (j : ℕ),
      essLoop b t d x mu var r s ess j =
        (if j < d then
          ess j + ∑ u in Finset.Ico s (stopLag b t d x mu var r s),
            (if auto_correlation_time b t x u mu var j > 1 / 20
             then 2 * auto_correlation_time b t x u mu var j *
               (1 - (u : ℚ) / (t : ℚ))
             else 0)
        else ess j) := by
  intro r
  induction r with
  | zero =>
    intro s ess j
    simp [essLoop, stopLag]
  | succ r ih =>
    intro s ess j
    have hcond : (((Finset.range d).filter
        (fun jj => auto_correlation_time b t x s mu var jj > 1 / 20)).card
          = 0) ↔
        (∀ jj ∈ Finset.range d,
          ¬ (auto_correlation_time b t x s mu var jj > 1 / 20)) := by
      rw [Finset.card_eq_zero, Finset.filter_eq_empty_iff]
    by_cases hstop : ∀ jj ∈ Finset.range d,
        ¬ (auto_correlation_time b t x s mu var jj > 1 / 20)
    · rw [show essLoop b t d x mu var (r + 1) s ess = ess from by
        simp only [essLoop]; rw [if_pos (hcond.mpr hstop)]]
      rw [show stopLag b t d x mu var (r + 1) s = s from by
        simp only [stopLag]; rw [if_pos hstop]]
      simp [Finset.Ico_self]
    · rw [show essLoop b t d x mu var (r + 1) s ess =
          essLoop b t d x mu var r (s + 1)
            (essUpdate d (auto_correlation_time b t x s mu var) s t ess)
          from by
        simp only [essLoop]; rw [if_neg (fun hc => hstop (hcond.mp hc))]]
      rw [show stopLag b t d x mu var (r + 1) s =
          stopLag b t d x mu var r (s + 1) from by
        simp only [stopLag]; rw [if_neg hstop]]
      rw [ih (s + 1)
        (essUpdate d (auto_correlation_time b t x s mu var) s t ess) j]
      by_cases hj : j < d
      · rw [if_pos hj, if_pos hj]
        have hlt : s < stopLag b t d x mu var r (s + 1) :=
          lt_of_lt_of_le (Nat.lt_succ_self s)
            (stopLag_ge b t d x mu var r (s + 1))
        rw [Finset.sum_eq_sum_Ico_succ_bot hlt]
        simp only [essUpdate]
        by_cases hp : auto_correlation_time b t x s mu var j > 1 / 20
        · rw [if_pos ⟨hj, hp⟩, if_pos hp]
          ring
        · rw [if_neg (fun hc => hp hc.2), if_neg hp]
          ring
      · rw [if_neg hj, if_neg hj]
        simp only [essUpdate]
        rw [if_neg (fun hc => hj hc.1)]

/-! ### Remaining claim theorems -/

/-- C5: `gelman_rubin_diagnostic` raises its usage error exactly when the
number of chains `m` (the first axis of the input) is less than 2; for
every input with `m ≥ 2` it computes the statistic without a usage
error. -/
theorem gelman_rubin_error_iff (x : List (List ℚ)) (mu : Option ℚ) :
    (∃ r, gelman_rubin_diagnostic x mu = Except.ok r) ↔ 2 ≤ x.length := by
  simp only [gelman_rubin_diagnostic, gelman_rubin_ratio]
  rcases Nat.lt_or_ge x.length 2 with h | h
  · rw [if_pos h]
    simp only [Except.map]
    constructor
    · rintro ⟨r, hr⟩
      exact absurd hr (by simp)
    · intro h2
      omega
  · rw [if_neg (Nat.not_lt.mpr h)]
    simp only [Except.map]
    exact ⟨fun _ => h, fun _ => ⟨_, rfl⟩⟩

/-- C3: for a rectangular `(m, n)` array of chains with `m ≥ 2`,
`gelman_rubin_diagnostic` returns `sqrt(V̂ / W)` where the per-chain means
and variances, the between-chain variance `B = n/(m-1) · Σ (θ_i - θ̄)²`,
the within-chain variance `W = (1/m) · Σ σ_i²` and the pooled estimate
`V̂ = (n-1)/n · W + (m+1)/(m·n) · B` are as specified. -/
theorem gelman_rubin_formula (x : List (List ℚ)) (n : ℕ)
    (hrect : ∀ row ∈ x, row.length = n) (hm : 2 ≤ x.length) :
    gelman_rubin_diagnostic x none =
      Except.ok (Real.sqrt
        ((vHatSpec x n / withinVarSpec x n : ℚ) : ℝ)) := by
  have hhead : (x.headD []).length = n := by
    cases x with
    | nil => simp at hm
    | cons r xs => exact hrect r (List.mem_cons_self r xs)
  have hratio : gelman_rubin_ratio x none =
      Except.ok (vHatSpec x n / withinVarSpec x n) := by
    simp only [gelman_rubin_ratio]
    rw [if_neg (by omega)]
    rw [hhead, bsum_eq x n hrect, sigma_sum_eq x n hrect]
    congr 1
  unfold gelman_rubin_diagnostic
  rw [hratio]
  rfl

/-- Witness for C3 at the two chains `[0, 1]` and `[2, 3]` (`m = n = 2`). -/
theorem gelman_rubin_formula_witness :
    ((∀ row ∈ ([[0, 1], [2, 3]] : List (List ℚ)), row.length = 2) ∧
      2 ≤ ([[0, 1], [2, 3]] : List (List ℚ)).length) ∧
    gelman_rubin_diagnostic [[0, 1], [2, 3]] none =
      Except.ok (Real.sqrt
        ((vHatSpec [[0, 1], [2, 3]] 2 /
          withinVarSpec [[0, 1], [2, 3]] 2 : ℚ) : ℝ)) :=
  ⟨⟨by simp, by norm_num⟩,
   gelman_rubin_formula [[0, 1], [2, 3]] 2 (by simp) (by norm_num)⟩

/-- C7 counterexample: on the two identical chains `[0, 2]`, the
between-chain variance is zero and the within-chain variance is 1, yet
the returned R-hat is `sqrt(1/2)`, not exactly 1 as the claim states. -/
theorem gelman_rubin_identical_not_one :
    gelman_rubin_diagnostic [[0, 2], [0, 2]] none ≠
      Except.ok ((1 : ℝ)) := by
  have hr : gelman_rubin_ratio [[0, 2], [0, 2]] none =
      Except.ok (1 / 2 : ℚ) := by
    norm_num [gelman_rubin_ratio, listMean, listVar]
  have hmap : gelman_rubin_diagnostic [[0, 2], [0, 2]] none =
      Except.ok (Real.sqrt ((1 / 2 : ℚ) : ℝ)) := by
    unfold gelman_rubin_diagnostic
    rw [hr]
    rfl
  intro hcon
  rw [hmap] at hcon
  simp only [Except.ok.injEq] at hcon
  rw [show (((1 / 2 : ℚ)) : ℝ) = (1 / 2 : ℝ) by norm_num] at hcon
  have h2 := Real.sqrt_eq_one.mp hcon
  norm_num at h2

/-- C7 amended: for `m ≥ 2` identical chains equal to a row `r` with
non-zero within-chain variance, `gelman_rubin_diagnostic` returns exactly
`sqrt((n-1)/n)` where `n` is the chain length: `V̂` reduces to
`(n-1)/n · W`, not to `W`, so R-hat equals 1 only in the limit of long
chains. -/
theorem gelman_rubin_identical_chains (r : List ℚ) (m : ℕ) (hm : 2 ≤ m)
    (hv : listVar r ≠ 0) :
    gelman_rubin_diagnostic (List.replicate m r) none =
      Except.ok (Real.sqrt
        ((((r.length : ℚ) - 1) / (r.length : ℚ) : ℚ) : ℝ)) := by
  have hm0 : (m : ℚ) ≠ 0 := Nat.cast_ne_zero.mpr (by omega)
  have hn0 : r.length ≠ 0 := by
    intro h
    apply hv
    have : r = [] := List.length_eq_zero.mp h
    simp [this, listVar, listMean]
  have hnq : (r.length : ℚ) ≠ 0 := Nat.cast_ne_zero.mpr hn0
  have hhead : (List.replicate m r).headD [] = r := by
    cases m with
    | zero => omega
    | succ k => rfl
  have hratio : gelman_rubin_ratio (List.replicate m r) none =
      Except.ok (((r.length : ℚ) - 1) / (r.length : ℚ)) := by
    simp only [gelman_rubin_ratio]
    rw [if_neg (by rw [List.length_replicate]; omega)]
    rw [hhead, List.length_replicate, List.map_replicate,
      List.map_replicate, listMean_replicate m (listMean r) (by omega),
      List.map_replicate]
    rw [show (listMean r - listMean r) ^ 2 = 0 by ring]
    rw [List.sum_replicate, List.sum_replicate, smul_zero, nsmul_eq_mul]
    congr 1
    field_simp
    ring
  unfold gelman_rubin_diagnostic
  rw [hratio]
  rfl

/-- Witness for the amended C7: two identical chains `[0, 2]` give
R-hat `sqrt(1/2)`. -/
theorem gelman_rubin_identical_chains_witness :
    (2 ≤ 2 ∧ listVar [0, 2] ≠ 0) ∧
    gelman_rubin_diagnostic (List.replicate 2 [0, 2]) none =
      Except.ok (Real.sqrt
        ((((([0, 2] : List ℚ).length : ℚ) - 1) /
          (([0, 2] : List ℚ).length : ℚ) : ℚ) : ℝ)) :=
  ⟨⟨le_refl 2, by norm_num [listVar, listMean]⟩,
   gelman_rubin_identical_chains [0, 2] 2 (le_refl 2)
     (by norm_num [listVar, listMean])⟩

/-- C8 (code bug): with chains `[[0, 2], [0, 4]]` and supplied reference
mean `mu = 0`, the truthiness test `mu if mu else np.mean(theta)` discards
the supplied zero mean: the result coincides with the no-mean call (which
uses the empirical grand mean `3/2`, giving R-hat `sqrt(4/5)`) and differs
from `sqrt(7/2)`, the value obtained when the grand mean is the supplied
`0` as the claim and the docstring (`if None, Monte Carlo estimates`)
require. -/
theorem gelman_rubin_ignores_zero_mu :
    gelman_rubin_diagnostic [[0, 2], [0, 4]] (some 0) =
      gelman_rubin_diagnostic [[0, 2], [0, 4]] none ∧
    gelman_rubin_diagnostic [[0, 2], [0, 4]] (some 0) ≠
      Except.ok (Real.sqrt ((7 : ℝ) / 2)) := by
  have h0 : gelman_rubin_ratio [[0, 2], [0, 4]] (some 0) =
      Except.ok (4 / 5 : ℚ) := by
    norm_num [gelman_rubin_ratio, listMean, listVar]
  have h1 : gelman_rubin_ratio [[0, 2], [0, 4]] none =
      Except.ok (4 / 5 : ℚ) := by
    norm_num [gelman_rubin_ratio, listMean, listVar]
  have hmap0 : gelman_rubin_diagnostic [[0, 2], [0, 4]] (some 0) =
      Except.ok (Real.sqrt ((4 / 5 : ℚ) : ℝ)) := by
    unfold gelman_rubin_diagnostic
    rw [h0]
    rfl
  have hmap1 : gelman_rubin_diagnostic [[0, 2], [0, 4]] none =
      Except.ok (Real.sqrt ((4 / 5 : ℚ) : ℝ)) := by
    unfold gelman_rubin_diagnostic
    rw [h1]
    rfl
  refine ⟨hmap0.trans hmap1.symm, ?_⟩
  rw [hmap0]
  simp only [ne_eq, Except.ok.injEq]
  intro hcon
  rw [show (((4 / 5 : ℚ)) : ℝ) = (4 / 5 : ℝ) by norm_num] at hcon
  have h2 := (Real.sqrt_inj (by norm_num) (by norm_num)).mp hcon
  norm_num at h2

/-- C4: for every `(b, t, d)` tensor and dimension `j < d`,
`effective_sample_size` returns `t` divided by the accumulator that starts
at one and receives `2 * p * (1 - s/t)` for each lag `s` before the first
all-insignificant lag at which the batch-averaged autocorrelation `p` of
dimension `j` exceeds `0.05`. -/
theorem effective_sample_size_formula (b t d : ℕ) (x : ℕ → ℕ → ℕ → ℚ)
    (mu0 var0 : Option (ℕ → ℚ)) (j : ℕ) (hj : j < d) :
    effective_sample_size b t d x mu0 var0 j =
      (t : ℚ) / essSpecAcc b t d x (mu0.getD (tensorMean b t x))
        (var0.getD (tensorVar b t x)) j := by
  simp only [effective_sample_size]
  congr 1
  rw [essLoop_eq b t d x _ _ (t - 1) 1 (fun _ => 1) j, if_pos hj]
  rfl

/-- Witness for C4 at `b = 1`, `t = 3`, `d = 1`, supplied mean and
variance, dimension `j = 0`. -/
theorem effective_sample_size_formula_witness :
    0 < 1 ∧
    effective_sample_size 1 3 1 (fun _ k _ => (k : ℚ))
        (some (fun _ => 1)) (some (fun _ => 2 / 3)) 0 =
      ((3 : ℕ) : ℚ) / essSpecAcc 1 3 1 (fun _ k _ => (k : ℚ))
        ((some (fun _ => (1 : ℚ))).getD
          (tensorMean 1 3 (fun _ k _ => (k : ℚ))))
        ((some (fun _ => (2 / 3 : ℚ))).getD
          (tensorVar 1 3 (fun _ k _ => (k : ℚ)))) 0 :=
  ⟨by norm_num,
   effective_sample_size_formula 1 3 1 (fun _ k _ => (k : ℚ))
     (some (fun _ => 1)) (some (fun _ => 2 / 3)) 0 (by norm_num)⟩

/-- C10: for `t ≥ 1`, the per-dimension accumulator of
`effective_sample_size` starts at one and only ever increases, so every
entry of the returned array `t / ess_` is strictly positive and at most
`t`. -/
theorem effective_sample_size_bounds (b t d : ℕ) (x : ℕ → ℕ → ℕ → ℚ)
    (mu0 var0 : Option (ℕ → ℚ)) (ht : 1 ≤ t) (j : ℕ) :
    0 < effective_sample_size b t d x mu0 var0 j ∧
      effective_sample_size b t d x mu0 var0 j ≤ (t : ℚ) := by
  have ht' : (0 : ℚ) < (t : ℚ) := by exact_mod_cast ht
  simp only [effective_sample_size]
  have hacc : (1 : ℚ) ≤ essLoop b t d x (mu0.getD (tensorMean b t x))
      (var0.getD (tensorVar b t x)) (t - 1) 1 (fun _ => 1) j := by
    rw [essLoop_eq]
    split_ifs with hj
    · have hnn : (0 : ℚ) ≤
          ∑ u in Finset.Ico 1 (stopLag b t d x
            (mu0.getD (tensorMean b t x)) (var0.getD (tensorVar b t x))
            (t - 1) 1),
            (if auto_correlation_time b t x u
                (mu0.getD (tensorMean b t x))
                (var0.getD (tensorVar b t x)) j > 1 / 20
             then 2 * auto_correlation_time b t x u
                (mu0.getD (tensorMean b t x))
                (var0.getD (tensorVar b t x)) j *
               (1 - (u : ℚ) / (t : ℚ))
             else 0) := by
        refine Finset.sum_nonneg (fun u hu => ?_)
        rcases Finset.mem_Ico.mp hu with ⟨hu1, hu2⟩
        have hut : u ≤ t := by
          have := stopLag_le b t d x (mu0.getD (tensorMean b t x))
            (var0.getD (tensorVar b t x)) (t - 1) 1
          omega
        split_ifs with hp
        · have hp0 : (0 : ℚ) < auto_correlation_time b t x u
              (mu0.getD (tensorMean b t x))
              (var0.getD (tensorVar b t x)) j :=
            lt_trans (by norm_num) hp
          have hfrac : (u : ℚ) / (t : ℚ) ≤ 1 := by
            rw [div_le_one ht']
            exact_mod_cast hut
          have hnn2 : (0 : ℚ) ≤ 1 - (u : ℚ) / (t : ℚ) := by linarith
          have := mul_nonneg (mul_nonneg (by norm_num : (0:ℚ) ≤ 2) hp0.le)
            hnn2
          linarith
        · exact le_refl 0
      show (1 : ℚ) ≤ 1 + _
      linarith
    · exact le_of_eq rfl
  exact ⟨div_pos ht' (lt_of_lt_of_le one_pos hacc),
    div_le_self ht'.le hacc⟩

/-- Witness for C10 at `b = 0`, `t = 2`, `d = 0`, dimension 0. -/
theorem effective_sample_size_bounds_witness :
    1 ≤ 2 ∧
      (0 < effective_sample_size 0 2 0 (fun _ _ _ => 0) none none 0 ∧
        effective_sample_size 0 2 0 (fun _ _ _ => 0) none none 0 ≤
          ((2 : ℕ) : ℚ)) :=
  ⟨by norm_num,
   effective_sample_size_bounds 0 2 0 (fun _ _ _ => 0) none none
     (by norm_num) 0⟩

end PyprobStats
